import Mathlib

/-!
# Verification of the resilient-fetch-client caching and resilience layers

Shallow embedding of the TypeScript sources of `resilient-fetch-client`:

* `src/SimpleClient.ts` — default-header merge (`_mergeHeaders`);
* `src/cache/CachingClient.ts` — freshness evaluator (`_cacheState`),
  cache-control parsing (`_evaluateCacheControl`), write-through decision
  (`_updateCache`), and the three strategy dispatchers of `fetchJson`;
* `src/cache/MemoryCache.ts` — the in-memory cache backend;
* `src/cache.ts` — `registerCacheProvider`;
* `src/ResilientClient.ts` — the `Retry-After` clamp of `_fetchInternal`.

JavaScript strings are modelled as `List Char` (`JStr`) so that the string
manipulation performed by the source (split, trim, toLowerCase, parseInt)
can be embedded as executable Lean functions.  JSON values are modelled by
the inductive `JVal`, which also carries JavaScript truthiness.
Asynchronous results (the transport outcome, the cache-lookup outcome,
which promise settles first) are supplied to the dispatch functions as
explicit parameters, which is the standard shallow embedding of the
single-threaded event-loop semantics.
-/

/-- JavaScript string, modelled as its sequence of characters. -/
abbrev JStr := List Char

/-- Conversion from Lean string literals to the `JStr` model. -/
def js (s : String) : JStr := s.data

/-- Model of a JSON/JavaScript value, as stored in caches and returned by
`fetchJson`.  `undef` models the JavaScript `undefined`.  Structured
values (objects and arrays) are abstracted to opaque tokens `data t`:
no claim verified here inspects their fields, only their identity and
their truthiness (objects and arrays are always truthy). -/
inductive JVal where
  | null
  | undef
  | bool (b : Bool)
  | num (n : Int)
  | str (s : JStr)
  | data (t : Nat)
deriving DecidableEq, Repr

/-- JavaScript truthiness of a `JVal`:  `undefined`, `null`, `false`, `0`
and the empty string are falsy, everything else is truthy. -/
def JVal.truthy : JVal → Bool
  | .null => false
  | .undef => false
  | .bool b => b
  | .num n => n != 0
  | .str s => s != []
  | .data _ => true

/-- Truthiness of an optional boolean field of a record (`undefined` is
falsy). -/
def truthyOB : Option Bool → Bool
  | some b => b
  | none => false

/-- Truthiness of an optional string (`undefined`/`null` and the empty
string are falsy). -/
def truthyOS : Option JStr → Bool
  | some s => s != []
  | none => false

/-! ## JavaScript string primitives used by the source -/

/-- HTTP whitespace (also what `String.prototype.trim` strips on the ASCII
header values that occur here). -/
def isHttpWs (c : Char) : Bool := c = ' ' || c = '\t' || c = '\n' || c = '\r'

/-- Model of `s.trim()`. -/
def jsTrim (s : JStr) : JStr :=
  ((s.dropWhile isHttpWs).reverse.dropWhile isHttpWs).reverse

/-- Model of `s.toLowerCase()` on the ASCII strings occurring in headers. -/
def jsToLower (s : JStr) : JStr := s.map Char.toLower

/-- Model of `s.split(c)` for a single-character separator: JavaScript
`split` always returns at least one (possibly empty) chunk. -/
def jsSplitOn (sep : Char) : JStr → List JStr
  | [] => [[]]
  | c :: rest =>
    match jsSplitOn sep rest with
    | [] => [[]]
    | r :: rs => if c = sep then [] :: r :: rs else (c :: r) :: rs

/-- The leading decimal digits of a string, or `none` if there are none;
the digit-consuming core of `parseInt`. -/
def leadingDigits (s : JStr) : Option Nat :=
  let ds := s.takeWhile Char.isDigit
  if ds = [] then none
  else some (ds.foldl (fun a c => a * 10 + (c.toNat - 48)) 0)

/-- Model of JavaScript `parseInt(s, 10)`: skip leading whitespace, accept
an optional sign, then read leading decimal digits; `none` models `NaN`
(so `Number.isFinite(parseInt(s))` is `(jsParseInt s).isSome`). -/
def jsParseInt (s : JStr) : Option Int :=
  match s.dropWhile isHttpWs with
  | '-' :: rest => (leadingDigits rest).map (fun n => -(n : Int))
  | '+' :: rest => (leadingDigits rest).map (fun n => (n : Int))
  | rest => (leadingDigits rest).map (fun n => (n : Int))

/-! ## The `Headers` web API

Entries are kept as a list of (name, value) pairs; names are stored
lowercased and values trimmed, exactly as the `Headers` class normalizes
them.  `get` joins all values of a name with `", "`; iteration
(`forEach`, and construction of a `Headers` from another `Headers`)
presents the names in sorted order, each with its joined value. -/

/-- Join a list of header values with `", "`, as `Headers.get` does. -/
def joinVals : List JStr → JStr
  | [] => []
  | [v] => v
  | v :: rest => v ++ ',' :: ' ' :: joinVals rest

structure HeadersM where
  entries : List (JStr × JStr)
deriving DecidableEq, Repr

/-- `headers.append(k, v)`: the name is lowercased and the value trimmed
(value normalization of the fetch standard). -/
def hAppend (h : HeadersM) (k v : JStr) : HeadersM :=
  ⟨h.entries ++ [(jsToLower k, jsTrim v)]⟩

/-- `headers.delete(k)`. -/
def hDelete (h : HeadersM) (k : JStr) : HeadersM :=
  ⟨h.entries.filter (fun p => p.1 ≠ jsToLower k)⟩

/-- All stored values for a name. -/
def hValues (h : HeadersM) (k : JStr) : List JStr :=
  h.entries.filterMap (fun p => if p.1 = jsToLower k then some p.2 else none)

/-- `headers.get(k)`: `null` when the name is absent, otherwise all its
values joined with `", "`. -/
def hGet (h : HeadersM) (k : JStr) : Option JStr :=
  match hValues h k with
  | [] => none
  | vs => some (joinVals vs)

/-- `headers.has(k)`. -/
def hHas (h : HeadersM) (k : JStr) : Bool := (hGet h k).isSome

/-- Total order used for the sorted iteration of header names
(lexicographic on characters). -/
def jstrLe : JStr → JStr → Bool
  | [], _ => true
  | _ :: _, [] => false
  | a :: as, b :: bs => if a = b then jstrLe as bs else decide (a < b)

def insertSortedJ (s : JStr) : List JStr → List JStr
  | [] => [s]
  | x :: xs => if jstrLe s x then s :: x :: xs else x :: insertSortedJ s xs

def sortJ (l : List JStr) : List JStr := l.foldr insertSortedJ []

/-- The pairs presented by `Headers` iteration (`forEach`, spreading into
a new `Headers`): sorted unique names, each with its joined value. -/
def hPairs (h : HeadersM) : List (JStr × JStr) :=
  (sortJ (h.entries.map Prod.fst).dedup).map (fun k => (k, joinVals (hValues h k)))

/-- `new Headers(init)` from a list of (name, value) pairs. -/
def hFromList (l : List (JStr × JStr)) : HeadersM :=
  l.foldl (fun h p => hAppend h p.1 p.2) ⟨[]⟩

/-- `new Headers(h)` for an existing `Headers` `h`: iteration combines
multiple values of a name into one entry. -/
def hCopy (h : HeadersM) : HeadersM := ⟨hPairs h⟩

/-! ## The `CacheControl` record (src/client.ts)

`maxAge`, `staleWhileRevalidate` and `staleIfError` hold seconds or a
boolean; the remaining directives are optional booleans.  Absent fields
model absent (`undefined`) properties of the TypeScript record. -/

/-- A `Seconds | boolean` field value. -/
inductive CCVal where
  | num (n : Int)
  | bool (b : Bool)
deriving DecidableEq, Repr

structure CacheControl where
  maxAge : Option CCVal := none
  noCache : Option Bool := none
  noStore : Option Bool := none
  mustRevalidate : Option Bool := none
  staleWhileRevalidate : Option CCVal := none
  staleIfError : Option CCVal := none
deriving DecidableEq, Repr

/-- `Object.assign(a, b)`: every property present on `b` overrides the
one of `a`. -/
def ccAssign (a b : CacheControl) : CacheControl where
  maxAge := b.maxAge <|> a.maxAge
  noCache := b.noCache <|> a.noCache
  noStore := b.noStore <|> a.noStore
  mustRevalidate := b.mustRevalidate <|> a.mustRevalidate
  staleWhileRevalidate := b.staleWhileRevalidate <|> a.staleWhileRevalidate
  staleIfError := b.staleIfError <|> a.staleIfError

/-- The effective record of `CachingClient._cacheState`:
`Object.assign({}, defaultCacheControl?, entry.cacheControl?,
forcedCacheControl?)` — later records override earlier ones. -/
def effectiveCacheControl (dflt entryCC forced : Option CacheControl) : CacheControl :=
  let s1 := match dflt with | some d => ccAssign {} d | none => {}
  let s2 := match entryCC with | some c => ccAssign s1 c | none => s1
  match forced with | some f => ccAssign s2 f | none => s2

/-- JavaScript numeric coercion of a `Seconds | boolean` value, as in
`(maxAge as Seconds) * 1000` (`false` coerces to `0`, `true` to `1`). -/
def ccNum : CCVal → Int
  | .num n => n
  | .bool true => 1
  | .bool false => 0

/-- The test `maxAge === false || (maxAge as number) <= 0` of
`_cacheState` (`undefined <= 0` and `true <= 0` are both false). -/
def maxAgeLeZero : Option CCVal → Bool
  | some (.bool false) => true
  | some (.bool true) => false
  | some (.num n) => decide (n ≤ 0)
  | none => false

/-- JavaScript truthiness of a `Seconds | boolean | undefined` field. -/
def ccTruthy : Option CCVal → Bool
  | some (.bool b) => b
  | some (.num n) => n != 0
  | none => false

/-! ## The freshness evaluator `CachingClient._cacheState` -/

/-- The `CacheState` union.  `stale` from the `noCache`/`mustRevalidate`
branches carries `mustRevalidate := true` and no relaxation fields; the
final branch carries the computed relaxations and an absent
(`false`-ish) `mustRevalidate`. -/
inductive CacheState where
  | disabled
  | fresh
  | stale (mustRevalidate : Bool) (staleWhileRevalidate : Option Bool)
      (staleIfError : Option Bool)
deriving DecidableEq, Repr

/-- `CachingClient._cacheState`, for an already-merged effective record.
`updated` is the entry timestamp, `now` the `Date.now()` read inside the
function (both in milliseconds). -/
def cacheState (updated : Int) (cc : CacheControl) (now : Int) : CacheState :=
  if truthyOB cc.noStore then .disabled
  else
    let noCache := if maxAgeLeZero cc.maxAge && truthyOB cc.mustRevalidate
      then true else truthyOB cc.noCache
    if noCache then .stale true none none
    else if cc.maxAge = none ∨ cc.maxAge = some (.bool true) then .fresh
    else
      let validUntil := updated + ccNum (cc.maxAge.getD (.num 0)) * 1000
      if now ≤ validUntil then .fresh
      else if truthyOB cc.mustRevalidate then .stale true none none
      else
        let swr : Option Bool :=
          if ccTruthy cc.staleWhileRevalidate then
            some (match cc.staleWhileRevalidate.getD (.bool false) with
              | .bool b => b
              | .num n => decide (validUntil + n * 1000 ≥ now))
          else none
        let sie : Option Bool :=
          match cc.staleIfError with
          | none => none
          | some (.bool b) => some b
          | some (.num n) => some (decide (validUntil + n * 1000 ≥ now))
        .stale false swr sie

/-- `_cacheState` applied to a cached entry and per-request options:
merges default, entry-derived and forced records, then evaluates. -/
def cacheStateOf (updated : Int) (entryCC dflt forced : Option CacheControl)
    (now : Int) : CacheState :=
  cacheState updated (effectiveCacheControl dflt entryCC forced) now

/-! ## The header parser `CachingClient._evaluateCacheControl` -/

/-- Value of a parsed `Cache-Control` directive: `true` for a bare
directive, otherwise the string after `=`. -/
inductive DirVal where
  | boolTrue
  | str (s : JStr)
deriving DecidableEq, Repr

/-- The directive list of `_evaluateCacheControl`: lowercase the header,
split on `,`, split each token on `=` and trim, drop tokens with more
than one `=`, and give bare directives the value `true`. -/
def directiveEntries (cc : JStr) : List (JStr × DirVal) :=
  ((jsSplitOn ',' (jsToLower cc)).map (fun e => (jsSplitOn '=' e).map jsTrim)).filterMap
    (fun e => match e with
      | [k] => some (k, DirVal.boolTrue)
      | [k, v] => some (k, DirVal.str v)
      | _ => none)

/-- `Object.fromEntries` lookup: the last entry of a key wins. -/
def dirLookup (l : List (JStr × DirVal)) (k : JStr) : Option DirVal :=
  (l.reverse.find? (fun p => decide (p.1 = k))).map Prod.snd

/-- Truthiness of `directives[k]` (`undefined` and the empty string are
falsy). -/
def dirTruthy : Option DirVal → Bool
  | some .boolTrue => true
  | some (.str s) => s != []
  | none => false

/-- `parseInt(directives[k] as string, 10)`: `parseInt` of the boolean
`true` or of `undefined` is `NaN`. -/
def dirParseInt : Option DirVal → Option Int
  | some .boolTrue => none
  | some (.str s) => jsParseInt s
  | none => none

/-- `Math.round(d / 1000)` for an integer millisecond difference `d`
(`Math.round x = ⌊x + 1/2⌋`). -/
def jsRound1000 (d : Int) : Int := Int.fdiv (d + 500) 1000

/-- `CachingClient._parseExpireHeader`.  `new Date(string).getTime()` is
supplied as the `dateParse` oracle (`none` models `NaN`); `now` is the
`new Date().getTime()` read inside the function. -/
def parseExpireHeader (dateParse : JStr → Option Int) (now : Int)
    (headers : HeadersM) : Option CacheControl :=
  match hGet headers (js "Expires") with
  | none => none
  | some v =>
    match dateParse v with
    | none => none
    | some expiry => some { maxAge := some (.num (max 0 (jsRound1000 (expiry - now)))) }

/-- `CachingClient._evaluateCacheControl`. -/
def evaluateCacheControl (dateParse : JStr → Option Int) (now : Int)
    (headers : HeadersM) : Option CacheControl :=
  if ¬ hHas headers (js "Cache-Control") then parseExpireHeader dateParse now headers
  else
    let directives := directiveEntries ((hGet headers (js "Cache-Control")).getD [])
    let noCache : Option Bool :=
      if dirTruthy (dirLookup directives (js "no-cache")) then some true else none
    let noStore : Option Bool :=
      if dirTruthy (dirLookup directives (js "no-store")) then some true else none
    let mustReval : Option Bool :=
      if dirTruthy (dirLookup directives (js "must-revalidate")) then some true else none
    let maxAge : Option CCVal :=
      match dirLookup directives (js "max-age") with
      | some v =>
        (match dirParseInt (some v) with
         | some n =>
           let ageParsed : Option Int :=
             match hGet headers (js "Age") with
             | none => none
             | some a => jsParseInt a
           let m1 := match ageParsed with | some age => n - age | none => n
           some (.num (if m1 ≤ 0 then 0 else m1))
         | none => none)
      | none =>
        match parseExpireHeader dateParse now headers with
        | some e => e.maxAge
        | none => none
    let swr : Option CCVal :=
      match dirParseInt (dirLookup directives (js "stale-while-revalidate")) with
      | some n => if n > 0 then some (.num n) else none
      | none => none
    let sie : Option CCVal :=
      match dirParseInt (dirLookup directives (js "stale-if-error")) with
      | some n => if n > 0 then some (.num n) else none
      | none => none
    some { maxAge := maxAge, noCache := noCache, noStore := noStore,
           mustRevalidate := mustReval, staleWhileRevalidate := swr, staleIfError := sie }

example : evaluateCacheControl (fun _ => none) 0
    (hFromList [(js "Cache-Control", js "max-age=100, no-store"), (js "Age", js "40")]) =
    some { maxAge := some (.num 60), noStore := some true } := by decide

example : cacheState 0 { maxAge := some (.num 0) } 0 = .fresh := by decide

example : cacheState 0 { maxAge := some (.num 0) } 1 = .stale false none none := by decide

/-! ## Cached entries and fetch results -/

/-- A `CachedObject` as stored by the cache backends. -/
structure CachedEntry where
  key : JStr
  updated : Int
  value : JVal
  headers : HeadersM
  cacheControl : Option CacheControl
deriving DecidableEq, Repr

/-- A `JsonResult` (`{value, headers}`) as produced by `fetchJson`. -/
structure JsonResultM where
  value : JVal
  headers : HeadersM
deriving DecidableEq, Repr

/-- Rejection reasons of a pipeline fetch, as discriminated by the
caching coordinator: an `HttpError` with cause `responseStatus` and a
status, an `HttpError` with cause `contentType`, a network error
(recognized by `isNetworkError`), or anything else. -/
inductive FetchErr where
  | http (status : Int)
  | contentType
  | network
  | other (tag : Nat)
deriving DecidableEq, Repr

/-- The failure predicate of the `staleIfError` catch handlers:
`HttpError` with cause `responseStatus` and status `≥ 500`, or a network
error. -/
def staleIfErrorCatches : FetchErr → Bool
  | .http s => decide (s ≥ 500)
  | .network => true
  | _ => false

/-- The numeric value of the `CacheStateCore` enum (`DISABLED = 0`,
`FRESH = 1`, `STALE = 2`); `if (r.state)` tests its truthiness. -/
def stateCode : CacheState → Int
  | .disabled => 0
  | .fresh => 1
  | .stale _ _ _ => 2

/-- The truthy `staleWhileRevalidate` relaxation of a state. -/
def staleSwr : CacheState → Bool
  | .stale _ s _ => truthyOB s
  | _ => false

/-- The truthy `staleIfError` relaxation of a state. -/
def staleSie : CacheState → Bool
  | .stale _ _ s => truthyOB s
  | _ => false

/-! ## Strategy `cacheControl` (CachingClient.fetchJson, default mode)

The decision taken after the awaited cache lookup, lines 59-115 of
`CachingClient.ts`.  The outcome says which of the four plans the call
follows; the asynchronous continuation of each plan is described in the
constructor docstrings. -/

inductive CCOutcome where
  /-- cache hit classified `FRESH`: the cached entry is returned at once,
  the transport is never invoked, and when `update` was requested the
  `update` channel is a rejected promise carrying a `NoUpdateError`. -/
  | freshCached (e : CachedEntry) (update : Bool)
  /-- miss, falsy cached value, or state `DISABLED`: plain pipeline fetch
  with write-through; with `update`, the `update` channel is a rejected
  promise carrying `NoUpdateError` ("Cache disabled"). -/
  | disabledFetch (update : Bool)
  /-- stale with truthy `staleWhileRevalidate`: the cached entry is
  returned immediately and the (possibly conditional) revalidation runs
  in the background; with `update` it becomes the `update` channel. -/
  | staleReturnCachedNow (conditionalHeader : Option (JStr × JStr))
      (e : CachedEntry) (update : Bool)
  /-- stale without `staleWhileRevalidate`: the call awaits the (possibly
  conditional) revalidation; if `catchStaleIfError` then a 5xx/network
  failure falls back to the cached entry. -/
  | staleAwaitRevalidation (conditionalHeader : Option (JStr × JStr))
      (catchStaleIfError : Bool) (e : CachedEntry) (update : Bool)
deriving DecidableEq, Repr

/-- The dispatch of the `cacheControl` strategy after the cache lookup
resolved to `cacheResult`. -/
def ccModeDispatch (cacheResult : Option CachedEntry)
    (dflt forced : Option CacheControl) (now : Int) (update : Bool) : CCOutcome :=
  let cachedAvailable := match cacheResult with
    | some e => e.value.truthy
    | none => false
  match cacheResult, cachedAvailable with
  | some e, true =>
    match cacheStateOf e.updated e.cacheControl dflt forced now with
    | .fresh => .freshCached e update
    | .disabled => .disabledFetch update
    | .stale _mr swr sie =>
      let etag := hGet e.headers (js "ETag")
      let lastMod := hGet e.headers (js "Last-Modified")
      let cond : Option (JStr × JStr) :=
        if truthyOS etag || truthyOS lastMod then
          if truthyOS etag then some (js "If-None-Match", etag.getD [])
          else if truthyOS lastMod then some (js "If-Modified-Since", lastMod.getD [])
          else none
        else none
      if truthyOB swr then .staleReturnCachedNow cond e update
      else .staleAwaitRevalidation cond (truthyOB sie) e update
  | _, _ => .disabledFetch update

/-! ## Strategy `fetchFirst` (CachingClient.fetchJson, lines 117-134) -/

/-- The result of a `fetchFirst` call, given the pipeline outcome and the
outcome of the cache lookup performed on failure (`Except Unit` models a
lookup that itself throws).  `inl` is a result of the fetch, `inr` a
cached entry returned as fallback. -/
def fetchFirstDispatch (fetchOutcome : Except FetchErr JsonResultM)
    (cacheLookup : Except Unit (Option CachedEntry))
    (dflt forced : Option CacheControl) (now : Int) :
    Except FetchErr (JsonResultM ⊕ CachedEntry) :=
  match fetchOutcome with
  | .ok r => .ok (.inl r)
  | .error e =>
    match cacheLookup with
    | .error _ => .error e
    | .ok none => .error e
    | .ok (some entry) =>
      let st := cacheStateOf entry.updated entry.cacheControl dflt forced now
      if st = .fresh || staleSie st then .ok (.inr entry) else .error e

/-! ## Strategy `race` (CachingClient.fetchJson, lines 135-235)

The handler applied to the first available result (the `.then` of lines
167-235).  The first result is `none` when the cache lookup won with
`undefined`, `inl` when it won with a cached entry (merged with its
`CacheState`), `inr` when the pipeline fetch won.  The final fetch
outcome and the `update` flag are the remaining inputs; `equalFn` is the
pluggable equality (`cacheConfig.equal`, defaulting to `deepEqual`,
which on the opaque value model is structural equality). -/

/-- What the `value` property of the returned object holds. -/
inductive RVal where
  /-- a plain JSON value (a well-formed `JsonResult`) -/
  | ofJson (v : JVal)
  /-- an entire `JsonResult` object assigned to `value` -/
  | ofResult (r : JsonResultM)
  /-- an entire cached object assigned to `value` -/
  | ofCached (e : CachedEntry)
deriving DecidableEq, Repr

/-- Outcome of the `update` promise in `update` mode. -/
inductive UpdateOutcome where
  | value (r : JsonResultM)
  | noUpdate
  | failed (e : FetchErr)
deriving DecidableEq, Repr

/-- What the `update` property of the returned object holds. -/
inductive UpdateChannel where
  /-- a rejected promise carrying a `NoUpdateError` -/
  | rejectedNoUpdate
  /-- a promise that settles with the given outcome -/
  | promise (o : UpdateOutcome)
  /-- a bare `NoUpdateError` object (not a promise) assigned to `update` -/
  | errorObjectNoUpdate
deriving DecidableEq, Repr

/-- The value a `race` call finally resolves with. -/
inductive RaceReturn where
  /-- the fetch `JsonResult`, returned unchanged (no `update` property) -/
  | passthroughResult (r : JsonResultM)
  /-- the cached object (with its state fields), returned unchanged -/
  | passthroughCached (e : CachedEntry)
  /-- an explicitly constructed `{value, headers, update}` object -/
  | constructed (value : RVal) (headers : HeadersM) (update : UpdateChannel)
deriving DecidableEq, Repr

def raceFirstHandler (first : Option ((CachedEntry × CacheState) ⊕ JsonResultM))
    (fetchOutcome : Except FetchErr JsonResultM) (update : Bool)
    (equalFn : JVal → JVal → Bool) : Except FetchErr RaceReturn :=
  match first with
  | some r =>
    let rValue : JVal := match r with | .inl (e, _) => e.value | .inr f => f.value
    let rHeaders : HeadersM := match r with | .inl (e, _) => e.headers | .inr f => f.headers
    let stTruthy : Bool := match r with
      | .inl (_, st) => stateCode st != 0
      | .inr _ => false
    let staleNoSwr : Bool := match r with
      | .inl (_, st) => stateCode st == 2 && !staleSwr st
      | .inr _ => false
    if stTruthy && staleNoSwr then
      match r with
      | .inl (e, st) =>
        let base : Except FetchErr (JsonResultM ⊕ CachedEntry) :=
          match fetchOutcome with
          | .ok f => .ok (.inl f)
          | .error err =>
            if staleSie st && staleIfErrorCatches err then .ok (.inr e) else .error err
        if !update then
          match base with
          | .ok (.inl f) => .ok (.passthroughResult f)
          | .ok (.inr e2) => .ok (.passthroughCached e2)
          | .error err => .error err
        else
          match base with
          | .ok res =>
            let hd := match res with | .inl f => f.headers | .inr e2 => e2.headers
            let rv := match res with | .inl f => RVal.ofResult f | .inr e2 => RVal.ofCached e2
            .ok (.constructed rv hd .errorObjectNoUpdate)
          | .error err => .error err
      | .inr f => .ok (.passthroughResult f)
    else
      if !update then
        match r with
        | .inl (e, _) => .ok (.passthroughCached e)
        | .inr f => .ok (.passthroughResult f)
      else
        let updOutcome : UpdateOutcome :=
          match fetchOutcome with
          | .error err => .failed err
          | .ok f =>
            let resultEtag := hGet f.headers (js "ETag")
            let eq1 : Option Bool :=
              if truthyOS resultEtag then
                let cachedEtag := hGet rHeaders (js "ETag")
                if truthyOS cachedEtag then
                  some (decide (resultEtag.getD [] = cachedEtag.getD [])) else none
              else none
            let eq2 : Option Bool :=
              match eq1 with
              | some b => some b
              | none =>
                let lastModified := hGet f.headers (js "Last-Modified")
                if truthyOS lastModified then
                  let cachedLM := hGet rHeaders (js "Last-Modified")
                  if truthyOS cachedLM then
                    some (decide (lastModified.getD [] = cachedLM.getD [])) else none
                else none
            let equalResult := match eq2 with | some b => b | none => equalFn f.value rValue
            if equalResult then .noUpdate else .value f
        .ok (.constructed (.ofJson rValue) rHeaders (.promise updOutcome))
  | none =>
    match fetchOutcome with
    | .ok f =>
      if !update then .ok (.passthroughResult f)
      else .ok (.constructed (.ofJson f.value) f.headers .rejectedNoUpdate)
    | .error err => .error err

/-! ## Write-through `CachingClient._updateCache` -/

/-- Whether `_updateCache` reaches `cache.set` (a write to the backend).
`expiresNow`, `updatedNow` and `stateNow` are the successive clock reads
of `_evaluateCacheControl`/`_parseExpireHeader`, of the entry timestamp,
and of `_cacheState`. -/
def updateCacheWrites (value : JVal) (headers : HeadersM)
    (dflt forced : Option CacheControl) (dateParse : JStr → Option Int)
    (expiresNow updatedNow stateNow : Int) : Bool :=
  if !value.truthy then false
  else
    let cc := evaluateCacheControl dateParse expiresNow headers
    let st := cacheStateOf updatedNow cc dflt forced stateNow
    decide (st ≠ .disabled)

/-! ## The `Retry-After` clamp of `ResilientFetchClient._fetchInternal` -/

/-- The sleep computation executed before a retry attempt when the
previous response carried a `Retry-After`-style hint (lines 287-309 of
the resilient client).  `retryAfterTime` is the absolute instant of the
parsed hint, `now` the first `Date.now()` read (diff computation) and
`now2` the second one (spent-time computation); `adapted` is the
`adaptedToRetryAfter` flag carried across retries of the same call.
Returns the final `diff` (the attempt sleeps `max 0 diff` milliseconds)
together with the updated flag. -/
def retryAfterSleep (totalTimeoutMillis : Option Int) (startTime : Int)
    (retryAfterTime : Int) (now now2 : Int) (adapted : Bool) : Int × Bool :=
  let diff := retryAfterTime - now
  let hasTotalTimeout := match totalTimeoutMillis with
    | some t => decide (t > 0)
    | none => false
  if diff > 0 && hasTotalTimeout && !adapted then
    let millisSpent := now2 - startTime
    let millisAvailable := (totalTimeoutMillis.getD 0) - millisSpent
    if millisAvailable > 0 && millisAvailable - 5000 < diff then
      let safetyMargin := if millisAvailable > 5000 then 5000 else millisAvailable
      (millisAvailable - safetyMargin, true)
    else (diff, adapted)
  else (diff, adapted)

/-- The status codes for which a `Retry-After`-style hint is examined. -/
def retryAfterCodes : List Int := [429, 503]

/-! ## The in-memory cache backend (MemoryCache.ts)

The `deepCopy` of the `cloneItems` option defaults to `structuredClone`,
which produces a structurally equal value; on the value model it is the
identity. -/

structure MemoryCacheM where
  entries : List (JStr × CachedEntry)
  maxItems : Option Nat
  cloneItems : Bool
deriving DecidableEq, Repr

/-- `Map.prototype.set`: replaces the value of an existing key in place,
otherwise appends (insertion order preserved). -/
def mapSetEntry (m : List (JStr × CachedEntry)) (k : JStr) (v : CachedEntry) :
    List (JStr × CachedEntry) :=
  if m.any (fun p => decide (p.1 = k)) then
    m.map (fun p => if p.1 = k then (k, v) else p)
  else m ++ [(k, v)]

/-- `MemoryCache.set`. -/
def memSet (c : MemoryCacheM) (key : JStr) (value : JVal) (headers : HeadersM)
    (cacheControl : Option CacheControl) (now : Int) : MemoryCacheM × Bool :=
  if key = [] || value = JVal.undef then (c, false)
  else
    let entries1 :=
      match c.maxItems with
      | some m => if c.entries.length ≥ m then c.entries.drop 1 else c.entries
      | none => c.entries
    let entry : CachedEntry :=
      { key := key, updated := now, value := value,
        headers := hCopy headers, cacheControl := cacheControl }
    ({ c with entries := mapSetEntry entries1 key entry }, true)

/-- `MemoryCache.get` (with `cloneItems`, the returned object carries a
copied headers object and a copied cache-control record; the value is a
structural clone, i.e. the same `JVal`). -/
def memGet (c : MemoryCacheM) (key : JStr) : Option CachedEntry :=
  (c.entries.find? (fun p => decide (p.1 = key))).map
    (fun p => if c.cloneItems then { p.2 with headers := hCopy p.2.headers } else p.2)

/-! ## `registerCacheProvider` (cache.ts) -/

/-- The property names every object literal inherits from
`Object.prototype`; the `in` operator sees them. -/
def objectPrototypeNames : List String :=
  ["constructor", "hasOwnProperty", "isPrototypeOf", "propertyIsEnumerable",
   "toLocaleString", "toString", "valueOf", "__defineGetter__",
   "__defineSetter__", "__lookupGetter__", "__lookupSetter__", "__proto__"]

/-- `/[a-zA-Z]/.test(providerId.charAt(0))`: the first character exists
and is an ASCII letter. -/
def firstCharIsAsciiLetter (s : String) : Bool :=
  match s.data with
  | [] => false
  | c :: _ => c.isAlpha

/-- `registerCacheProvider`, over a registry modelled as an association
list from provider ids to loaders (an arbitrary type `L` with decidable
equality, standing for function identity).  A lookup of an
`Object.prototype` name on the registry object succeeds through the
prototype chain, and the inherited property is never a user loader. -/
def registerCacheProvider {L : Type} [DecidableEq L] (reg : List (String × L))
    (providerId : String) (loader : L) : Except String (List (String × L)) :=
  if !firstCharIsAsciiLetter providerId then
    .error "Invalid character at position 0"
  else if providerId.length > 64 then
    .error "Provider id too long"
  else
    match (reg.find? (fun p => p.1 == providerId)).map Prod.snd with
    | some l => if l = loader then .ok reg else .error "already registered"
    | none =>
      if objectPrototypeNames.contains providerId then .error "already registered"
      else .ok (reg ++ [(providerId, loader)])

/-- Modelled from the spec: the provider-id language
`/^[A-Za-z][A-Za-z0-9_-]{0,63}$/` that the specification requires for
registration.  Defined for comparison with the code's actual checks. -/
def specProviderIdPattern (s : String) : Bool :=
  match s.data with
  | [] => false
  | c :: rest => c.isAlpha && rest.length ≤ 63 &&
      rest.all (fun d => d.isAlphanum || d = '_' || d = '-')

/-! ## The default-header merge `SimpleFetchClient._mergeHeaders` -/

/-- One `forEach` step of `_mergeHeaders` for a (name, value) pair
presented by the update-headers iteration: an empty or `"undefined"`
value deletes the name; otherwise the value is appended unless one of
the comma-separated entries of the existing value already equals it
case-insensitively (after trimming the entry). -/
def mergeStep (acc : HeadersM) (kv : JStr × JStr) : HeadersM :=
  if kv.2 = [] || kv.2 = js "undefined" then hDelete acc kv.1
  else
    let dup : Bool := match hGet acc kv.1 with
      | some e => e != [] && (jsSplitOn ',' e).any
          (fun entry => jsToLower (jsTrim entry) == jsToLower kv.2)
      | none => false
    if dup then acc else hAppend acc kv.1 kv.2

/-- Merging one update headers object into the accumulated result. -/
def mergeOneUpdate (acc : HeadersM) (u : HeadersM) : HeadersM :=
  (hPairs u).foldl mergeStep acc

/-- `SimpleFetchClient._mergeHeaders`: with no updates the source is
returned as-is; otherwise the source is copied into a fresh `Headers`
and every update merged in. -/
def mergeHeadersM (source : Option HeadersM) (updates : List HeadersM) :
    Option HeadersM :=
  if updates = [] then source
  else
    let start := match source with | some h => hCopy h | none => (⟨[]⟩ : HeadersM)
    some (updates.foldl mergeOneUpdate start)

/-- `get` through the optional result of `_mergeHeaders`. -/
def hGetO : Option HeadersM → JStr → Option JStr
  | some h, k => hGet h k
  | none, _ => none

/-! ## Supporting lemmas -/

/-- With a falsy `noStore`, `_cacheState` never yields `DISABLED`. -/
theorem cacheState_ne_disabled (updated : Int) (cc : CacheControl) (now : Int)
    (h : truthyOB cc.noStore = false) : cacheState updated cc now ≠ .disabled := by
  unfold cacheState
  rw [if_neg (by simp [h])]
  repeat' split
  all_goals simp [ite_eq_iff]

/-- `_cacheState` yields `DISABLED` exactly when the effective record has
a truthy `noStore`. -/
theorem cacheState_disabled_iff (updated : Int) (cc : CacheControl) (now : Int) :
    cacheState updated cc now = .disabled ↔ truthyOB cc.noStore = true := by
  constructor
  · intro h
    by_contra hns
    exact cacheState_ne_disabled updated cc now (by simpa using hns) h
  · intro h
    unfold cacheState
    rw [if_pos h]

/-! ## C1: the Retry-After clamp against the overall deadline -/

/-- C1: when `timeoutTotal = T` is configured, the clamp has not yet been
applied (`adapted = false`), a Retry-After hint yields a positive delay
`hint - now`, time `remaining = T - (now2 - startTime)` is still left,
and the delay would leave less than the 5-second safety margin, then the
sleep before the next attempt is clamped to
`max 0 (remaining - 5000)` milliseconds and the `adaptedToRetryAfter`
flag is set; and in any later execution of the same call (flag already
set) the computation never modifies the hint delay again. -/
theorem retryAfter_clamped_once (T startTime hint now now2 : Int)
    (hT : 0 < T)
    (hdiff : 0 < hint - now)
    (hrem : 0 < T - (now2 - startTime))
    (hclose : T - (now2 - startTime) - 5000 < hint - now) :
    retryAfterSleep (some T) startTime hint now now2 false
      = (max 0 (T - (now2 - startTime) - 5000), true)
    ∧ ∀ (st2 hint2 n n2 : Int),
        retryAfterSleep (some T) st2 hint2 n n2 true = (hint2 - n, true) := by
  constructor
  · unfold retryAfterSleep
    simp only [Option.getD_some]
    rw [if_pos, if_pos]
    · split <;> (simp only [Prod.mk.injEq] ; exact ⟨by omega, trivial⟩)
    · simp only [Bool.and_eq_true, decide_eq_true_eq]
      omega
    · simp only [Bool.and_eq_true, decide_eq_true_eq, Bool.not_false, and_true]
      exact ⟨hdiff, hT⟩
  · intro st2 hint2 n n2
    unfold retryAfterSleep
    simp

/-- Witness for C1 at `T = 10000`, `startTime = 0`, `hint = 20000`,
`now = now2 = 1000`: the sleep is clamped to `4000` ms. -/
theorem retryAfter_clamped_once_witness :
    retryAfterSleep (some 10000) 0 20000 1000 1000 false = (4000, true)
    ∧ retryAfterSleep (some 10000) 3 7 5 6 true = (2, true) := by
  have h := retryAfter_clamped_once 10000 0 20000 1000 1000
    (by decide) (by decide) (by decide) (by decide)
  exact ⟨h.1, h.2 3 7 5 6⟩

/-! ## C6: `max-age = 0` and the freshness boundary -/

/-- The effective record of a `max-age=0` response with no further
directives. -/
def ccMaxAgeZero : CacheControl := { maxAge := some (.num 0) }

/-- C6 counterexample: with `maxAge = 0` and no other directives, a
lookup at `now = updated` (here both `0`, so `now ≥ updated`) is
classified `FRESH`, not `Stale`, because the evaluator keeps an entry
fresh while `now ≤ updated + maxAge·1000`.  This refutes the claim that
every lookup with `now ≥ updated` is classified `Stale`. -/
theorem maxAgeZero_fresh_at_boundary :
    cacheState 0 ccMaxAgeZero 0 = .fresh
    ∧ stateCode (cacheState 0 ccMaxAgeZero 0) ≠ 2 := by decide

/-- C6 amended: with `maxAge = 0` and no other directives, every lookup
strictly after the stored millisecond (`updated < now`) is classified
`Stale` (with no relaxations); only a lookup within the same
millisecond (`now = updated`) still sees the entry as `FRESH`. -/
theorem maxAgeZero_stale_after (updated now : Int) (h : updated < now) :
    cacheState updated ccMaxAgeZero now = .stale false none none := by
  unfold cacheState ccMaxAgeZero
  simp [truthyOB, maxAgeLeZero, ccNum, ccTruthy]
  omega

/-- Witness for C6 (amended) at `updated = 0`, `now = 1`. -/
theorem maxAgeZero_stale_after_witness :
    cacheState 0 ccMaxAgeZero 1 = .stale false none none :=
  maxAgeZero_stale_after 0 1 (by decide)

/-! ## C5: which responses are written through -/

/-- C5 amended: after a successful fetch, `_updateCache` skips the
backend write exactly when the fetched value is falsy or the effective
record (defaults ← response-derived ← forced) has a truthy `noStore`.
In particular `maxAge = 0` or `maxAge = false` without revalidation
hints does **not** prevent the write. -/
theorem updateCacheWrites_eq (value : JVal) (headers : HeadersM)
    (dflt forced : Option CacheControl) (dateParse : JStr → Option Int)
    (expiresNow updatedNow stateNow : Int) :
    updateCacheWrites value headers dflt forced dateParse expiresNow updatedNow stateNow
      = (value.truthy && !truthyOB
          (effectiveCacheControl dflt (evaluateCacheControl dateParse expiresNow headers)
            forced).noStore) := by
  unfold updateCacheWrites cacheStateOf
  cases hv : value.truthy
  · simp [hv]
  · simp only [hv, Bool.not_true, Bool.true_and, Bool.false_eq_true, if_false]
    set st := cacheState updatedNow
      (effectiveCacheControl dflt (evaluateCacheControl dateParse expiresNow headers) forced)
      stateNow with hst
    have hiff := cacheState_disabled_iff updatedNow
      (effectiveCacheControl dflt (evaluateCacheControl dateParse expiresNow headers) forced)
      stateNow
    rw [← hst] at hiff
    cases ht : truthyOB (effectiveCacheControl dflt
        (evaluateCacheControl dateParse expiresNow headers) forced).noStore
    · have hne : st ≠ .disabled := by
        intro hc
        rw [hiff] at hc
        rw [hc] at ht
        exact Bool.noConfusion ht
      simp [hne]
    · have heq : st = .disabled := hiff.mpr ht
      simp [heq]

/-- C5 counterexample: a truthy value fetched with
`Cache-Control: max-age=0` (no defaults, no forced record) has an
effective record with `maxAge = 0` and no `noStore`/`noCache`/
`mustRevalidate`, yet `_updateCache` does reach `cache.set` — the
"do not write" clause for `maxAge = 0` without revalidation hints is not
implemented. -/
theorem maxAgeZero_still_written :
    (effectiveCacheControl none
        (evaluateCacheControl (fun _ => none) 0
          (hFromList [(js "Cache-Control", js "max-age=0")])) none).maxAge
        = some (.num 0)
    ∧ (effectiveCacheControl none
        (evaluateCacheControl (fun _ => none) 0
          (hFromList [(js "Cache-Control", js "max-age=0")])) none).noStore = none
    ∧ (effectiveCacheControl none
        (evaluateCacheControl (fun _ => none) 0
          (hFromList [(js "Cache-Control", js "max-age=0")])) none).noCache = none
    ∧ (effectiveCacheControl none
        (evaluateCacheControl (fun _ => none) 0
          (hFromList [(js "Cache-Control", js "max-age=0")])) none).mustRevalidate = none
    ∧ updateCacheWrites (.str (js "x"))
        (hFromList [(js "Cache-Control", js "max-age=0")]) none none
        (fun _ => none) 0 0 0 = true := by decide

/-! ## C9: provider registration -/

/-- C9 counterexample: the id `"a!"` is outside the spec's language
`/^[A-Za-z][A-Za-z0-9_-]{0,63}$/`, yet `registerCacheProvider` accepts
it (the code only checks the first character and the length). -/
theorem registerCacheProvider_accepts_nonmatching_id :
    specProviderIdPattern "a!" = false
    ∧ registerCacheProvider ([] : List (String × Nat)) "a!" 0 = .ok [("a!", 0)] := by
  exact ⟨by decide, rfl⟩

/-- C9 amended: registration is rejected exactly when the first character
is not an ASCII letter or the id is longer than 64 characters (characters
after the first are unrestricted); re-registering an id bound to the
identical loader is a no-op leaving the registry unchanged;
re-registering an id bound to a different loader (including the names of
`Object.prototype` properties, which the `in` operator of the code also
sees) throws; otherwise the loader is added. -/
theorem registerCacheProvider_contract {L : Type} [DecidableEq L]
    (reg : List (String × L)) (pid : String) (loader : L) :
    ((firstCharIsAsciiLetter pid = false ∨ pid.length > 64) →
      ∃ msg, registerCacheProvider reg pid loader = .error msg)
    ∧ ((reg.find? (fun p => p.1 == pid)).map Prod.snd = some loader →
        firstCharIsAsciiLetter pid = true → pid.length ≤ 64 →
        registerCacheProvider reg pid loader = .ok reg)
    ∧ (∀ l, (reg.find? (fun p => p.1 == pid)).map Prod.snd = some l → l ≠ loader →
        firstCharIsAsciiLetter pid = true → pid.length ≤ 64 →
        ∃ msg, registerCacheProvider reg pid loader = .error msg)
    ∧ (reg.find? (fun p => p.1 == pid) = none →
        objectPrototypeNames.contains pid = false →
        firstCharIsAsciiLetter pid = true → pid.length ≤ 64 →
        registerCacheProvider reg pid loader = .ok (reg ++ [(pid, loader)])) := by
  refine ⟨?_, ?_, ?_, ?_⟩
  · rintro (h | h)
    · refine ⟨"Invalid character at position 0", ?_⟩
      unfold registerCacheProvider
      rw [if_pos (by simp [h])]
    · by_cases hfc : firstCharIsAsciiLetter pid = true
      · refine ⟨"Provider id too long", ?_⟩
        unfold registerCacheProvider
        rw [if_neg (by simp [hfc]), if_pos h]
      · refine ⟨"Invalid character at position 0", ?_⟩
        unfold registerCacheProvider
        rw [if_pos (by simp [Bool.not_eq_true] at hfc; simp [hfc])]
  · intro hfind hfirst hlen
    unfold registerCacheProvider
    rw [if_neg (by simp [hfirst]), if_neg (by omega), hfind]
    simp
  · intro l hfind hne hfirst hlen
    refine ⟨"already registered", ?_⟩
    unfold registerCacheProvider
    rw [if_neg (by simp [hfirst]), if_neg (by omega), hfind]
    simp [hne]
  · intro hfind hproto hfirst hlen
    unfold registerCacheProvider
    rw [if_neg (by simp [hfirst]), if_neg (by omega), hfind]
    rw [if_neg (by rw [hproto]; simp)]
    rfl

/-- Witness for C9 (amended): a fresh well-formed id is added, applying
each clause of the contract at concrete inputs. -/
theorem registerCacheProvider_contract_witness :
    registerCacheProvider [("a", (1 : Nat))] "b" 2 = .ok [("a", 1), ("b", 2)]
    ∧ registerCacheProvider [("a", (1 : Nat))] "a" 1 = .ok [("a", 1)] := by
  constructor
  · exact (registerCacheProvider_contract [("a", (1 : Nat))] "b" 2).2.2.2
      (by decide) (by decide) (by decide) (by decide)
  · exact (registerCacheProvider_contract [("a", (1 : Nat))] "a" 1).2.1
      (by decide) (by decide) (by decide)

/-! ## C10: the in-memory cache `set` contract -/

/-- `find?` after a `Map.set` replacement hits the new pair. -/
theorem find?_mapReplace (k : JStr) (v : CachedEntry) :
    ∀ m : List (JStr × CachedEntry), m.any (fun p => decide (p.1 = k)) = true →
      (m.map (fun p => if p.1 = k then (k, v) else p)).find?
          (fun p => decide (p.1 = k)) = some (k, v) := by
  intro m
  induction m with
  | nil => intro h; simp at h
  | cons p rest ih =>
    intro h
    by_cases hp : p.1 = k
    · simp [hp]
    · simp only [List.map_cons, if_neg hp]
      rw [List.find?_cons_of_neg _ (by simp [hp])]
      apply ih
      simp only [List.any_cons, Bool.or_eq_true, decide_eq_true_eq] at h
      rcases h with h | h
      · exact absurd h hp
      · exact h

/-- `find?` after a `Map.set` insertion of a new key hits the appended
pair. -/
theorem find?_mapAppendNew (k : JStr) (v : CachedEntry) :
    ∀ m : List (JStr × CachedEntry), m.any (fun p => decide (p.1 = k)) = false →
      (m ++ [(k, v)]).find? (fun p => decide (p.1 = k)) = some (k, v) := by
  intro m
  induction m with
  | nil => intro _; simp
  | cons p rest ih =>
    intro h
    simp only [List.any_cons, Bool.or_eq_false_iff, decide_eq_false_iff_not] at h
    rw [List.cons_append, List.find?_cons_of_neg _ (by simp [h.1])]
    exact ih (by simp [h.2])

/-- `Map.set` followed by a lookup of the same key yields the new pair. -/
theorem find?_mapSetEntry (m : List (JStr × CachedEntry)) (k : JStr) (v : CachedEntry) :
    (mapSetEntry m k v).find? (fun p => decide (p.1 = k)) = some (k, v) := by
  unfold mapSetEntry
  split
  · exact find?_mapReplace k v m (by assumption)
  · rename_i hany
    exact find?_mapAppendNew k v m ((Bool.not_eq_true _) ▸ hany)

/-- C10: `MemoryCache.set` with an empty key or an `undefined` value
resolves `false` and leaves the cache contents completely unchanged;
otherwise it resolves `true` and a subsequent `get` of the key yields an
entry whose value equals the stored value. -/
theorem memSet_contract (c : MemoryCacheM) (key : JStr) (value : JVal)
    (headers : HeadersM) (cc : Option CacheControl) (now : Int) :
    ((key = [] ∨ value = JVal.undef) → memSet c key value headers cc now = (c, false))
    ∧ (key ≠ [] → value ≠ JVal.undef →
        (memSet c key value headers cc now).2 = true
        ∧ (memGet (memSet c key value headers cc now).1 key).map CachedEntry.value
            = some value) := by
  constructor
  · intro h
    unfold memSet
    rcases h with h | h <;> simp [h]
  · intro h1 h2
    unfold memSet memGet
    rw [if_neg (by simp [h1, h2])]
    refine ⟨rfl, ?_⟩
    simp only
    rw [find?_mapSetEntry]
    cases hc : c.cloneItems <;> simp [hc]

/-- Witness for C10 at a concrete cache and key. -/
theorem memSet_contract_witness :
    (memSet ⟨[], none, false⟩ (js "k") (.str (js "v")) ⟨[]⟩ none 7).2 = true
    ∧ (memGet (memSet ⟨[], none, false⟩ (js "k") (.str (js "v")) ⟨[]⟩ none 7).1
        (js "k")).map CachedEntry.value = some (.str (js "v"))
    ∧ memSet ⟨[], none, false⟩ [] (.str (js "v")) ⟨[]⟩ none 7 = (⟨[], none, false⟩, false) := by
  refine ⟨?_, ?_, ?_⟩
  · exact ((memSet_contract ⟨[], none, false⟩ (js "k") (.str (js "v")) ⟨[]⟩ none 7).2
      (by decide) (by decide)).1
  · exact ((memSet_contract ⟨[], none, false⟩ (js "k") (.str (js "v")) ⟨[]⟩ none 7).2
      (by decide) (by decide)).2
  · exact (memSet_contract ⟨[], none, false⟩ [] (.str (js "v")) ⟨[]⟩ none 7).1
      (Or.inl rfl)

/-! ## C2: cacheControl strategy, fresh hit -/

/-- C2: in `cacheControl` mode, when the cache lookup yields an entry
with a truthy value whose effective state is `FRESH`, the dispatch
returns the cached entry without invoking the transport; when `update`
was requested the `update` channel is a rejected promise carrying a
`NoUpdateError` (the `freshCached` plan). -/
theorem ccMode_fresh_hit (e : CachedEntry) (dflt forced : Option CacheControl)
    (now : Int) (update : Bool)
    (htruthy : e.value.truthy = true)
    (hfresh : cacheStateOf e.updated e.cacheControl dflt forced now = .fresh) :
    ccModeDispatch (some e) dflt forced now update = .freshCached e update := by
  unfold ccModeDispatch
  simp [htruthy, hfresh]

/-- Witness for C2 at a concrete fresh entry. -/
theorem ccMode_fresh_hit_witness :
    ccModeDispatch
      (some { key := js "k", updated := 0, value := .str (js "v"),
              headers := ⟨[]⟩, cacheControl := none }) none none 5 true
      = .freshCached { key := js "k", updated := 0, value := .str (js "v"),
                       headers := ⟨[]⟩, cacheControl := none } true :=
  ccMode_fresh_hit _ none none 5 true (by decide) (by decide)

/-! ## C4: fetchFirst strategy, failure fallback -/

/-- C4: in `fetchFirst` mode, when the pipeline fetch fails, the call
returns the cached entry exactly when the lookup yields one whose state
is `FRESH` or carries a truthy `staleIfError`; with no entry, a stale
entry without `staleIfError`, or a failing lookup, the original fetch
error is rethrown. -/
theorem fetchFirst_failure_fallback (err : FetchErr)
    (look : Except Unit (Option CachedEntry)) (dflt forced : Option CacheControl)
    (now : Int) :
    (∀ entry, look = .ok (some entry) →
      ((cacheStateOf entry.updated entry.cacheControl dflt forced now = .fresh
          ∨ staleSie (cacheStateOf entry.updated entry.cacheControl dflt forced now) = true) →
        fetchFirstDispatch (.error err) look dflt forced now = .ok (.inr entry))
      ∧ (cacheStateOf entry.updated entry.cacheControl dflt forced now ≠ .fresh →
          staleSie (cacheStateOf entry.updated entry.cacheControl dflt forced now) = false →
          fetchFirstDispatch (.error err) look dflt forced now = .error err))
    ∧ (look = .ok none → fetchFirstDispatch (.error err) look dflt forced now = .error err)
    ∧ (∀ u, look = .error u →
        fetchFirstDispatch (.error err) look dflt forced now = .error err) := by
  refine ⟨?_, ?_, ?_⟩
  · intro entry hl
    subst hl
    have hdisp : fetchFirstDispatch (.error err) (.ok (some entry)) dflt forced now
        = if (cacheStateOf entry.updated entry.cacheControl dflt forced now = .fresh
              || staleSie (cacheStateOf entry.updated entry.cacheControl dflt forced now))
          then .ok (.inr entry) else .error err := rfl
    rw [hdisp]
    constructor
    · intro hc
      rw [if_pos]
      rcases hc with h | h
      · simp [h]
      · simp [h]
    · intro hne hsie
      rw [if_neg]
      simp [hne, hsie]
  · intro hl
    subst hl
    rfl
  · intro u hl
    subst hl
    rfl

/-- Witness for C4: a fresh cached entry is returned when the fetch
fails, and with no entry the error is rethrown. -/
theorem fetchFirst_failure_fallback_witness :
    fetchFirstDispatch (.error (.http 500))
      (.ok (some { key := js "k", updated := 0, value := .str (js "v"),
                   headers := ⟨[]⟩, cacheControl := none })) none none 5
      = .ok (.inr { key := js "k", updated := 0, value := .str (js "v"),
                    headers := ⟨[]⟩, cacheControl := none })
    ∧ fetchFirstDispatch (.error (.http 500)) (.ok none) none none 5
      = .error (.http 500) := by
  constructor
  · exact ((fetchFirst_failure_fallback (.http 500) _ none none 5).1 _ rfl).1
      (Or.inl (by decide))
  · exact (fetchFirst_failure_fallback (.http 500) (.ok none) none none 5).2.1 rfl

/-! ## C7: `max-age` and `Age` arithmetic of the parser -/

/-- C7: when the `Cache-Control` header's parsed directive list maps
`max-age` to a string parsing to the finite integer `N`, the parser
produces a record; its `maxAge` is `max 0 (N - A)` when the `Age` header
is present and parses to the finite integer `A`, and `max 0 N` when
`Age` is absent or does not parse to a finite number. -/
theorem evaluateCacheControl_maxAge_age (dateParse : JStr → Option Int)
    (now : Int) (headers : HeadersM) (cc s : JStr) (N : Int)
    (hcc : hGet headers (js "Cache-Control") = some cc)
    (hdir : dirLookup (directiveEntries cc) (js "max-age") = some (.str s))
    (hN : jsParseInt s = some N) :
    (∀ a A, hGet headers (js "Age") = some a → jsParseInt a = some A →
      ∃ r, evaluateCacheControl dateParse now headers = some r
        ∧ r.maxAge = some (.num (max 0 (N - A))))
    ∧ ((hGet headers (js "Age") = none
          ∨ ∃ a, hGet headers (js "Age") = some a ∧ jsParseInt a = none) →
      ∃ r, evaluateCacheControl dateParse now headers = some r
        ∧ r.maxAge = some (.num (max 0 N))) := by
  have hhas : hHas headers (js "Cache-Control") = true := by
    unfold hHas
    rw [hcc]
    rfl
  constructor
  · intro a A ha hA
    unfold evaluateCacheControl
    rw [if_neg (by simp [hhas])]
    rw [hcc]
    simp only [Option.getD_some, hdir, dirParseInt, hN, ha, hA]
    refine ⟨_, rfl, ?_⟩
    simp only
    have : (if N - A ≤ 0 then (0 : Int) else N - A) = max 0 (N - A) := by
      rcases le_or_lt (N - A) 0 with h | h
      · simp [h]
      · rw [if_neg (by omega)]
        omega
    rw [this]
  · intro hage
    unfold evaluateCacheControl
    rw [if_neg (by simp [hhas])]
    rw [hcc]
    have hmax : (if N ≤ 0 then (0 : Int) else N) = max 0 N := by
      rcases le_or_lt N 0 with h | h
      · simp [h]
      · rw [if_neg (by omega)]
        omega
    rcases hage with ha | ⟨a, ha, hA⟩
    · simp only [Option.getD_some, hdir, dirParseInt, hN, ha]
      refine ⟨_, rfl, ?_⟩
      simp only
      rw [hmax]
    · simp only [Option.getD_some, hdir, dirParseInt, hN, ha, hA]
      refine ⟨_, rfl, ?_⟩
      simp only
      rw [hmax]

/-- Witness for C7: `Cache-Control: max-age=100` with `Age: 40` yields
`maxAge = 60`; with a non-numeric `Age` it yields `maxAge = 100`. -/
theorem evaluateCacheControl_maxAge_age_witness :
    (∃ r, evaluateCacheControl (fun _ => none) 0
        (hFromList [(js "Cache-Control", js "max-age=100"), (js "Age", js "40")]) = some r
      ∧ r.maxAge = some (.num (max 0 (100 - 40))))
    ∧ (∃ r, evaluateCacheControl (fun _ => none) 0
        (hFromList [(js "Cache-Control", js "max-age=100"), (js "Age", js "soon")]) = some r
      ∧ r.maxAge = some (.num (max 0 100))) := by
  constructor
  · exact (evaluateCacheControl_maxAge_age (fun _ => none) 0
      (hFromList [(js "Cache-Control", js "max-age=100"), (js "Age", js "40")])
      (js "max-age=100") (js "100") 100 (by decide) (by decide) (by decide)).1
      (js "40") 40 (by decide) (by decide)
  · exact (evaluateCacheControl_maxAge_age (fun _ => none) 0
      (hFromList [(js "Cache-Control", js "max-age=100"), (js "Age", js "soon")])
      (js "max-age=100") (js "100") 100 (by decide) (by decide) (by decide)).2
      (Or.inr ⟨js "soon", by decide, by decide⟩)

/-! ## C3: race strategy, stale hit without relaxations -/

/-- C3 (behaviour of the code at the failing input): in `race` mode,
when the cache wins with a stale entry carrying neither
`staleWhileRevalidate` nor `staleIfError` and the fetch later succeeds:
with `update = false` the call indeed resolves with the fetch result
(the claim's behaviour), but with `update = true` it resolves with an
object whose `value` property holds the **entire** fetch `JsonResult`
(not its `value`) and whose `update` property holds a bare
`NoUpdateError` object instead of a promise. -/
theorem race_staleNoRelax_update_bug :
    raceFirstHandler
      (some (.inl ({ key := js "k", updated := 0, value := .str (js "stale"),
                     headers := ⟨[]⟩, cacheControl := none },
                   .stale false none none)))
      (.ok { value := .str (js "fresh"), headers := ⟨[]⟩ }) true (fun a b => a == b)
      = .ok (.constructed
          (.ofResult { value := .str (js "fresh"), headers := ⟨[]⟩ })
          ⟨[]⟩ .errorObjectNoUpdate)
    ∧ raceFirstHandler
      (some (.inl ({ key := js "k", updated := 0, value := .str (js "stale"),
                     headers := ⟨[]⟩, cacheControl := none },
                   .stale false none none)))
      (.ok { value := .str (js "fresh"), headers := ⟨[]⟩ }) false (fun a b => a == b)
      = .ok (.passthroughResult { value := .str (js "fresh"), headers := ⟨[]⟩ }) := by
  exact ⟨rfl, rfl⟩

/-! ## C8: idempotence of the default-header merge

The counterexample and the amended theorem rest on a stack of lemmas
about the string primitives and the headers model. -/

/-- `Char.toLower` as a closed conditional. -/
theorem toLower_eq (c : Char) :
    c.toLower = if c.toNat ≥ 65 ∧ c.toNat ≤ 90 then Char.ofNat (c.toNat + 32) else c := rfl

theorem char_toNat_ofNat (n : Nat) (h : n.isValidChar) : (Char.ofNat n).toNat = n := by
  unfold Char.ofNat
  rw [dif_pos h]
  rfl

theorem toLower_toLower (c : Char) : c.toLower.toLower = c.toLower := by
  rw [toLower_eq c]
  by_cases h : c.toNat ≥ 65 ∧ c.toNat ≤ 90
  · rw [if_pos h, toLower_eq]
    have hv : (Char.ofNat (c.toNat + 32)).toNat = c.toNat + 32 :=
      char_toNat_ofNat _ (Or.inl (by omega))
    rw [if_neg (by rw [hv]; omega)]
  · rw [if_neg h, toLower_eq c, if_neg h]

theorem jsToLower_idem (s : JStr) : jsToLower (jsToLower s) = jsToLower s := by
  unfold jsToLower
  rw [List.map_map]
  apply List.map_congr_left
  intro c _
  exact toLower_toLower c

theorem dropWhile_idem (p : Char → Bool) (l : JStr) :
    (l.dropWhile p).dropWhile p = l.dropWhile p := by
  induction l with
  | nil => rfl
  | cons a t ih =>
    by_cases h : p a
    · rw [List.dropWhile_cons, if_pos h]
      exact ih
    · rw [List.dropWhile_cons, if_neg h, List.dropWhile_cons, if_neg h]

theorem dropWhile_head_false (p : Char → Bool) :
    ∀ (l : JStr) (x : Char) (xs : JStr), l.dropWhile p = x :: xs → p x = false := by
  intro l
  induction l with
  | nil => intro x xs h; simp at h
  | cons a t ih =>
    intro x xs h
    rw [List.dropWhile_cons] at h
    by_cases hp : p a
    · rw [if_pos hp] at h
      exact ih x xs h
    · rw [if_neg hp] at h
      cases h
      simpa using hp

theorem dropWhile_eq_self_of_head (p : Char → Bool) (x : Char) (xs : JStr)
    (h : p x = false) : (x :: xs).dropWhile p = x :: xs := by
  rw [List.dropWhile_cons, if_neg (by simp [h])]

theorem dropWhile_suffix_exists (p : Char → Bool) :
    ∀ l : JStr, ∃ w, w ++ l.dropWhile p = l := by
  intro l
  induction l with
  | nil => exact ⟨[], rfl⟩
  | cons a t ih =>
    by_cases h : p a
    · obtain ⟨w, hw⟩ := ih
      exact ⟨a :: w, by rw [List.dropWhile_cons, if_pos h, List.cons_append, hw]⟩
    · exact ⟨[], by rw [List.nil_append, List.dropWhile_cons, if_neg h]⟩

theorem jsTrim_idem (s : JStr) : jsTrim (jsTrim s) = jsTrim s := by
  unfold jsTrim
  set u := s.dropWhile isHttpWs with hu
  set r := u.reverse.dropWhile isHttpWs with hr
  have h1 : r.reverse.dropWhile isHttpWs = r.reverse := by
    cases hrv : r.reverse with
    | nil => rfl
    | cons x xs =>
      apply dropWhile_eq_self_of_head
      obtain ⟨w, hw⟩ := dropWhile_suffix_exists isHttpWs u.reverse
      have hueq : u = x :: (xs ++ w.reverse) := by
        have : (w ++ r).reverse = u.reverse.reverse := by rw [hw]
        rw [List.reverse_append, List.reverse_reverse] at this
        rw [← this, hrv]
        rfl
      exact dropWhile_head_false isHttpWs s x (xs ++ w.reverse) (by rw [← hu]; exact hueq)
  have h2 : r.dropWhile isHttpWs = r := by
    rw [hr]
    exact dropWhile_idem _ _
  rw [h1, List.reverse_reverse, h2]

/-- Trimming is blind to one leading space. -/
theorem jsTrim_space_cons (v : JStr) : jsTrim (' ' :: v) = jsTrim v := by
  unfold jsTrim
  rw [List.dropWhile_cons, if_pos (by simp [isHttpWs])]

/-- `split` never yields the empty list. -/
theorem jsSplitOn_ne_nil (sep : Char) (s : JStr) : jsSplitOn sep s ≠ [] := by
  induction s with
  | nil => simp [jsSplitOn]
  | cons c rest ih =>
    unfold jsSplitOn
    cases h : jsSplitOn sep rest with
    | nil => exact absurd h ih
    | cons r rs => by_cases hc : c = sep <;> simp [hc]

/-- The cons equation of `split`, with the recursive result exposed via
`headI`/`tail`. -/
theorem jsSplitOn_cons (sep c : Char) (rest : JStr) :
    jsSplitOn sep (c :: rest) =
      if c = sep then [] :: jsSplitOn sep rest
      else (c :: (jsSplitOn sep rest).headI) :: (jsSplitOn sep rest).tail := by
  cases h : jsSplitOn sep rest with
  | nil => exact absurd h (jsSplitOn_ne_nil sep rest)
  | cons r rs =>
    unfold jsSplitOn
    rw [h]
    by_cases hc : c = sep <;> simp [hc]

/-- `split` of a separator-free string is the single chunk. -/
theorem jsSplitOn_no_sep (sep : Char) :
    ∀ s : JStr, sep ∉ s → jsSplitOn sep s = [s] := by
  intro s
  induction s with
  | nil => intro _; rfl
  | cons c rest ih =>
    intro h
    have hc : ¬ c = sep := by
      intro hcc
      exact h (by rw [hcc]; exact List.mem_cons_self _ _)
    rw [jsSplitOn_cons, if_neg hc, ih (fun hm => h (List.mem_cons_of_mem c hm))]
    simp

/-- Splitting around one separator occurrence splits the two sides
independently. -/
theorem jsSplitOn_append (sep : Char) (b : JStr) :
    ∀ a : JStr, jsSplitOn sep (a ++ sep :: b) = jsSplitOn sep a ++ jsSplitOn sep b := by
  intro a
  induction a with
  | nil =>
    rw [List.nil_append, jsSplitOn_cons, if_pos rfl]
    rfl
  | cons c a' ih =>
    rw [List.cons_append, jsSplitOn_cons, ih, jsSplitOn_cons]
    by_cases hc : c = sep
    · rw [if_pos hc, if_pos hc]
      simp
    · rw [if_neg hc, if_neg hc]
      cases h : jsSplitOn sep a' with
      | nil => exact absurd h (jsSplitOn_ne_nil sep a')
      | cons r rs => simp [h]

/-- Appending one more value to a nonempty joined list. -/
theorem joinVals_append_one (v : JStr) :
    ∀ vs : List JStr, vs ≠ [] →
      joinVals (vs ++ [v]) = joinVals vs ++ ',' :: ' ' :: v := by
  intro vs
  induction vs with
  | nil => intro h; exact absurd rfl h
  | cons x rest ih =>
    intro _
    cases hr : rest with
    | nil => rfl
    | cons y ys =>
      subst hr
      have h1 : joinVals (x :: (y :: ys) ++ [v])
          = x ++ ',' :: ' ' :: joinVals ((y :: ys) ++ [v]) := rfl
      have h2 : joinVals (x :: y :: ys) = x ++ ',' :: ' ' :: joinVals (y :: ys) := rfl
      rw [h1, h2, ih (by simp)]
      simp

theorem hValues_hAppend (h : HeadersM) (k v κ : JStr) :
    hValues (hAppend h k v) κ
      = hValues h κ ++ (if jsToLower k = jsToLower κ then [jsTrim v] else []) := by
  unfold hValues hAppend
  rw [List.filterMap_append]
  congr 1
  by_cases hk : jsToLower k = jsToLower κ <;> simp [hk]

theorem hValues_hDelete_same (h : HeadersM) (k κ : JStr)
    (hk : jsToLower k = jsToLower κ) : hValues (hDelete h k) κ = [] := by
  unfold hValues hDelete
  rw [List.filterMap_eq_nil_iff]
  intro p hp
  have h2 := (List.mem_filter.mp hp).2
  simp only [decide_eq_true_eq] at h2
  rw [if_neg]
  intro hP
  exact h2 (by rw [hk]; exact hP)

theorem hValues_hDelete_other (h : HeadersM) (k κ : JStr)
    (hk : jsToLower k ≠ jsToLower κ) : hValues (hDelete h k) κ = hValues h κ := by
  obtain ⟨l⟩ := h
  unfold hValues hDelete
  simp only [ne_eq, decide_not]
  induction l with
  | nil => rfl
  | cons p rest ih =>
    by_cases hp : p.1 = jsToLower k
    · have hP : ¬ p.1 = jsToLower κ := fun hP => hk (by rw [← hp]; exact hP)
      simp [List.filter_cons, List.filterMap_cons, hp, hP, hk, Ne.symm hk, ih]
    · by_cases hP : p.1 = jsToLower κ
      · simp [List.filter_cons, List.filterMap_cons, hp, hP, hk, Ne.symm hk, ih]
      · simp [List.filter_cons, List.filterMap_cons, hp, hP, hk, Ne.symm hk, ih]

theorem hValues_mergeStep_other (acc : HeadersM) (q : JStr × JStr) (κ : JStr)
    (hk : jsToLower q.1 ≠ jsToLower κ) :
    hValues (mergeStep acc q) κ = hValues acc κ := by
  simp only [mergeStep]
  split
  · exact hValues_hDelete_other acc q.1 κ hk
  · split
    · rfl
    · rw [hValues_hAppend, if_neg hk]
      simp

theorem hGet_eq_some (h : HeadersM) (k : JStr) (hne : hValues h k ≠ []) :
    hGet h k = some (joinVals (hValues h k)) := by
  unfold hGet
  cases hv : hValues h k with
  | nil => exact absurd hv hne
  | cons a l => rfl

/-- The invariant established for the values of one name after
`_mergeHeaders` has processed that name's update pair: a deletion value
leaves no entries; any other value appears (case-insensitively, after
trimming) among the comma-separated entries of the joined value. -/
def valsSettled (vs : List JStr) (v : JStr) : Prop :=
  if v = [] ∨ v = js "undefined" then vs = []
  else joinVals vs ≠ [] ∧ vs ≠ [] ∧
    (jsSplitOn ',' (joinVals vs)).any
      (fun entry => jsToLower (jsTrim entry) == jsToLower v) = true

/-- A settled pair leaves the accumulator unchanged (the pass-2 step). -/
theorem mergeStep_settled (acc : HeadersM) (q : JStr × JStr)
    (hs : valsSettled (hValues acc q.1) q.2) :
    mergeStep acc q = acc := by
  simp only [mergeStep]
  split
  · rename_i hdel
    simp only [Bool.or_eq_true, decide_eq_true_eq] at hdel
    unfold valsSettled at hs
    rw [if_pos hdel] at hs
    have hnone : ∀ p ∈ acc.entries, p.1 ≠ jsToLower q.1 := by
      intro p hp hP
      have hne : hValues acc q.1 ≠ [] := by
        unfold hValues
        rw [ne_eq, List.filterMap_eq_nil_iff]
        push_neg
        exact ⟨p, hp, by rw [if_pos hP]; simp⟩
      exact hne hs
    show (⟨acc.entries.filter _⟩ : HeadersM) = acc
    rw [List.filter_eq_self.mpr (by intro a ha; simpa using hnone a ha)]
  · rename_i hdel
    simp only [Bool.or_eq_true, decide_eq_true_eq] at hdel
    push_neg at hdel
    unfold valsSettled at hs
    rw [if_neg (by rw [not_or]; exact hdel)] at hs
    obtain ⟨hjne, hvne, hany⟩ := hs
    have hget := hGet_eq_some acc q.1 hvne
    split
    · rfl
    · rename_i hdup
      exfalso
      apply hdup
      rw [hget]
      rw [Bool.and_eq_true]
      constructor
      · simpa using hjne
      · exact hany

/-- Processing a good pair establishes its invariant (the pass-1 step). -/
theorem mergeStep_establishes (acc : HeadersM) (q : JStr × JStr)
    (htr : jsTrim q.2 = q.2) (hnc : ',' ∉ q.2) :
    valsSettled (hValues (mergeStep acc q) q.1) q.2 := by
  simp only [mergeStep]
  by_cases hdel : q.2 = [] ∨ q.2 = js "undefined"
  · rw [if_pos (by simpa using hdel)]
    unfold valsSettled
    rw [if_pos hdel]
    exact hValues_hDelete_same acc q.1 q.1 rfl
  · rw [if_neg (by simpa using hdel)]
    push_neg at hdel
    split
    · rename_i hdup
      cases hget : hGet acc q.1 with
      | none => rw [hget] at hdup; simp at hdup
      | some e =>
        rw [hget] at hdup
        rw [Bool.and_eq_true] at hdup
        have hvne : hValues acc q.1 ≠ [] := by
          intro hv
          unfold hGet at hget
          rw [hv] at hget
          simp at hget
        have he : e = joinVals (hValues acc q.1) := by
          have h2 := hGet_eq_some acc q.1 hvne
          rw [hget] at h2
          exact Option.some_inj.mp h2
        unfold valsSettled
        rw [if_neg (by rw [not_or]; exact hdel)]
        refine ⟨?_, hvne, ?_⟩
        · rw [← he]
          simpa using hdup.1
        · rw [← he]
          exact hdup.2
    · unfold valsSettled
      rw [if_neg (by rw [not_or]; exact hdel)]
      rw [hValues_hAppend, if_pos rfl, htr]
      cases hvs : hValues acc q.1 with
      | nil =>
        rw [List.nil_append]
        refine ⟨?_, by simp, ?_⟩
        · show joinVals [q.2] ≠ []
          have : joinVals [q.2] = q.2 := rfl
          rw [this]
          exact hdel.1
        · show (jsSplitOn ',' (joinVals [q.2])).any _ = true
          have hj : joinVals [q.2] = q.2 := rfl
          rw [hj, jsSplitOn_no_sep ',' q.2 hnc]
          simp [htr]
      | cons a l =>
        rw [joinVals_append_one q.2 (a :: l) (by simp)]
        refine ⟨by simp, by simp, ?_⟩
        have hb : (',' : Char) ∉ (' ' :: q.2) := by
          intro hm
          rcases List.mem_cons.mp hm with h | h
          · exact absurd h.symm (by decide)
          · exact hnc h
        rw [jsSplitOn_append ',' (' ' :: q.2) (joinVals (a :: l))]
        rw [List.any_append, Bool.or_eq_true]
        right
        rw [jsSplitOn_no_sep ',' (' ' :: q.2) hb]
        simp [jsTrim_space_cons, htr]

theorem insertSortedJ_perm (s : JStr) (l : List JStr) :
    List.Perm (insertSortedJ s l) (s :: l) := by
  induction l with
  | nil => exact List.Perm.refl _
  | cons x xs ih =>
    unfold insertSortedJ
    split
    · exact List.Perm.refl _
    · exact (ih.cons x).trans (List.Perm.swap s x xs)

theorem sortJ_perm (l : List JStr) : List.Perm (sortJ l) l := by
  induction l with
  | nil => exact List.Perm.refl _
  | cons x xs ih =>
    unfold sortJ at ih ⊢
    rw [List.foldr_cons]
    exact (insertSortedJ_perm x _).trans (ih.cons x)

theorem sortJ_nodup (l : List JStr) (h : l.Nodup) : (sortJ l).Nodup :=
  ((sortJ_perm l).nodup_iff).mpr h

theorem mem_sortJ (l : List JStr) (a : JStr) : a ∈ sortJ l ↔ a ∈ l :=
  (sortJ_perm l).mem_iff

/-- Every pair presented by `Headers` iteration has a stored name and
carries the joined values of that name. -/
theorem mem_hPairs (h : HeadersM) (p : JStr × JStr) (hp : p ∈ hPairs h) :
    p.1 ∈ h.entries.map Prod.fst ∧ p.2 = joinVals (hValues h p.1) := by
  unfold hPairs at hp
  obtain ⟨k, hk, hpe⟩ := List.mem_map.mp hp
  cases hpe
  exact ⟨List.mem_dedup.mp ((mem_sortJ _ _).mp hk), rfl⟩

theorem hPairs_keys_nodup (h : HeadersM) : ((hPairs h).map Prod.fst).Nodup := by
  unfold hPairs
  rw [List.map_map]
  have : (Prod.fst ∘ fun k => (k, joinVals (hValues h k))) = id := rfl
  rw [this, List.map_id]
  exact sortJ_nodup _ (List.nodup_dedup _)

/-- All stored names are lowercase. -/
def Lowered (h : HeadersM) : Prop := ∀ p ∈ h.entries, jsToLower p.1 = p.1

/-- All stored values are trimmed. -/
def Trimmed (h : HeadersM) : Prop := ∀ p ∈ h.entries, jsTrim p.2 = p.2

theorem hFromList_entries (l : List (JStr × JStr)) :
    (hFromList l).entries = l.map (fun p => (jsToLower p.1, jsTrim p.2)) := by
  unfold hFromList
  suffices hgen : ∀ acc : HeadersM,
      (l.foldl (fun h p => hAppend h p.1 p.2) acc).entries
        = acc.entries ++ l.map (fun p => (jsToLower p.1, jsTrim p.2)) by
    simpa using hgen ⟨[]⟩
  induction l with
  | nil => intro acc; simp
  | cons q rest ih =>
    intro acc
    rw [List.foldl_cons, List.map_cons, ih (hAppend acc q.1 q.2)]
    unfold hAppend
    simp

theorem Lowered_hFromList (l : List (JStr × JStr)) : Lowered (hFromList l) := by
  intro p hp
  rw [hFromList_entries] at hp
  obtain ⟨q, _, hqe⟩ := List.mem_map.mp hp
  rw [← hqe]
  exact jsToLower_idem q.1

theorem Trimmed_hFromList (l : List (JStr × JStr)) : Trimmed (hFromList l) := by
  intro p hp
  rw [hFromList_entries] at hp
  obtain ⟨q, _, hqe⟩ := List.mem_map.mp hp
  rw [← hqe]
  exact jsTrim_idem q.2

/-- `hCopy` preserves lowercase names; equivalently, the names presented
by iteration are lowercase. -/
theorem Lowered_hCopy (h : HeadersM) (hlow : Lowered h) : Lowered (hCopy h) := by
  intro p hp
  have hm := (mem_hPairs h p hp).1
  obtain ⟨q, hq, hqe⟩ := List.mem_map.mp hm
  exact hqe ▸ hlow q hq

theorem Lowered_mergeStep (acc : HeadersM) (q : JStr × JStr) (h : Lowered acc) :
    Lowered (mergeStep acc q) := by
  simp only [mergeStep]
  split
  · intro p hp
    exact h p (List.mem_of_mem_filter hp)
  · split
    · exact h
    · intro p hp
      rcases List.mem_append.mp hp with hm | hm
      · exact h p hm
      · rcases List.mem_singleton.mp hm with rfl
        exact jsToLower_idem q.1

theorem Lowered_foldl_mergeStep :
    ∀ (pairs : List (JStr × JStr)) (acc : HeadersM), Lowered acc →
      Lowered (pairs.foldl mergeStep acc) := by
  intro pairs
  induction pairs with
  | nil => intro acc h; exact h
  | cons q rest ih =>
    intro acc h
    rw [List.foldl_cons]
    exact ih _ (Lowered_mergeStep acc q h)

theorem mem_hValues (h : HeadersM) (k : JStr) (a : JStr) (ha : a ∈ hValues h k) :
    ∃ q ∈ h.entries, q.2 = a := by
  unfold hValues at ha
  obtain ⟨q, hq, hqe⟩ := List.mem_filterMap.mp ha
  refine ⟨q, hq, ?_⟩
  by_cases hc : q.1 = jsToLower k
  · rw [if_pos hc] at hqe
    exact Option.some_inj.mp hqe
  · rw [if_neg hc] at hqe
    simp at hqe

theorem hValues_ne_nil_of_mem_names (h : HeadersM) (k : JStr)
    (hk : jsToLower k = k) (hm : k ∈ h.entries.map Prod.fst) : hValues h k ≠ [] := by
  obtain ⟨q, hq, hqe⟩ := List.mem_map.mp hm
  unfold hValues
  rw [ne_eq, List.filterMap_eq_nil_iff]
  push_neg
  exact ⟨q, hq, by rw [if_pos (by rw [hk]; exact hqe)]; simp⟩

theorem hValues_nil_of_not_mem (h : HeadersM) (k : JStr) (hk : jsToLower k = k)
    (hm : k ∉ h.entries.map Prod.fst) : hValues h k = [] := by
  unfold hValues
  rw [List.filterMap_eq_nil_iff]
  intro p hp
  rw [if_neg]
  intro hP
  rw [hk] at hP
  exact hm (hP ▸ List.mem_map_of_mem Prod.fst hp)

/-- Under the comma-free hypothesis, an iterated value is a single
stored value, hence trimmed. -/
theorem hPairs_value_trim (h : HeadersM) (htrm : Trimmed h) (hlow : Lowered h)
    (p : JStr × JStr) (hp : p ∈ hPairs h) (hnc : ',' ∉ p.2) : jsTrim p.2 = p.2 := by
  obtain ⟨hmem, hval⟩ := mem_hPairs h p hp
  have hκ : jsToLower p.1 = p.1 := Lowered_hCopy h hlow p hp
  have hne : hValues h p.1 ≠ [] := hValues_ne_nil_of_mem_names h p.1 hκ hmem
  cases hvs : hValues h p.1 with
  | nil => exact absurd hvs hne
  | cons a l =>
    cases l with
    | nil =>
      have ha : a ∈ hValues h p.1 := by rw [hvs]; exact List.mem_cons_self a []
      obtain ⟨q, hq, hqe⟩ := mem_hValues h p.1 a ha
      rw [hval, hvs]
      show jsTrim (joinVals [a]) = joinVals [a]
      have hj : joinVals [a] = a := rfl
      rw [hj, ← hqe]
      exact htrm q hq
    | cons b t =>
      exfalso
      apply hnc
      rw [hval, hvs]
      show (',' : Char) ∈ joinVals (a :: b :: t)
      have hj : joinVals (a :: b :: t) = a ++ ',' :: ' ' :: joinVals (b :: t) := rfl
      rw [hj]
      exact List.mem_append.mpr (Or.inr (List.mem_cons_self _ _))

theorem filterMap_map_names (g : JStr → JStr) (κ : JStr) :
    ∀ ns : List JStr, ns.Nodup →
      List.filterMap (fun p : JStr × JStr => if p.1 = κ then some p.2 else none)
        (ns.map (fun n => (n, g n)))
      = if κ ∈ ns then [g κ] else [] := by
  intro ns
  induction ns with
  | nil => intro _; simp
  | cons n rest ih =>
    intro hnd
    obtain ⟨hnm, hrest⟩ := List.nodup_cons.mp hnd
    rw [List.map_cons, List.filterMap_cons, ih hrest]
    by_cases hn : n = κ
    · subst hn
      rw [if_pos rfl, if_pos (List.mem_cons_self n rest), if_neg hnm]
    · rw [if_neg hn]
      by_cases hκ : κ ∈ rest
      · rw [if_pos hκ, if_pos (List.mem_cons_of_mem n hκ)]
      · rw [if_neg hκ, if_neg]
        intro hm
        rcases List.mem_cons.mp hm with h | h
        · exact hn h.symm
        · exact hκ h

/-- The value list of a copied headers object: the combined value when
the name is stored, nothing otherwise. -/
theorem hValues_hCopy_char (r : HeadersM) (κ : JStr) (hκ : jsToLower κ = κ) :
    hValues (hCopy r) κ
      = if hValues r κ = [] then [] else [joinVals (hValues r κ)] := by
  have hLHS : hValues (hCopy r) κ
      = List.filterMap (fun p : JStr × JStr => if p.1 = jsToLower κ then some p.2 else none)
          (hPairs r) := rfl
  have hchar : hValues (hCopy r) κ
      = if κ ∈ sortJ (r.entries.map Prod.fst).dedup
        then [joinVals (hValues r κ)] else [] := by
    rw [hLHS, hκ]
    unfold hPairs
    exact filterMap_map_names (fun n => joinVals (hValues r n)) κ _
      (sortJ_nodup _ (List.nodup_dedup _))
  rw [hchar]
  by_cases hv : hValues r κ = []
  · rw [if_pos hv, if_neg]
    intro hm
    exact hValues_ne_nil_of_mem_names r κ hκ (List.mem_dedup.mp ((mem_sortJ _ _).mp hm)) hv
  · rw [if_neg hv, if_pos]
    by_contra hm
    exact hv (hValues_nil_of_not_mem r κ hκ
      (fun hmm => hm ((mem_sortJ _ _).mpr (List.mem_dedup.mpr hmm))))

theorem hValues_key_toLower (h : HeadersM) (k : JStr) :
    hValues h k = hValues h (jsToLower k) := by
  unfold hValues
  rw [jsToLower_idem]

theorem hGet_key_toLower (h : HeadersM) (k : JStr) :
    hGet h k = hGet h (jsToLower k) := by
  unfold hGet
  rw [← hValues_key_toLower]

/-- Copying a headers object does not change what `get` observes. -/
theorem hGet_hCopy (r : HeadersM) (k : JStr) : hGet (hCopy r) k = hGet r k := by
  rw [hGet_key_toLower (hCopy r) k, hGet_key_toLower r k]
  have hchar := hValues_hCopy_char r (jsToLower k) (jsToLower_idem k)
  unfold hGet
  rw [hchar]
  by_cases hv : hValues r (jsToLower k) = []
  · rw [if_pos hv, hv]
  · rw [if_neg hv]
    cases hvs : hValues r (jsToLower k) with
    | nil => exact absurd hvs hv
    | cons a l => rfl

theorem foldl_mergeStep_values_other (κ : JStr) :
    ∀ (pairs : List (JStr × JStr)) (acc : HeadersM),
      (∀ p ∈ pairs, jsToLower p.1 ≠ jsToLower κ) →
      hValues (pairs.foldl mergeStep acc) κ = hValues acc κ := by
  intro pairs
  induction pairs with
  | nil => intro acc _; rfl
  | cons q rest ih =>
    intro acc hne
    rw [List.foldl_cons, ih _ (fun p hp => hne p (List.mem_cons_of_mem q hp))]
    exact hValues_mergeStep_other acc q κ (hne q (List.mem_cons_self q rest))

/-- Pass 1: after folding all pairs of an update, every pair's invariant
holds in the result. -/
theorem foldl_mergeStep_settles :
    ∀ (pairs : List (JStr × JStr)) (acc : HeadersM),
      (∀ p ∈ pairs, jsToLower p.1 = p.1 ∧ jsTrim p.2 = p.2 ∧ ',' ∉ p.2) →
      (pairs.map Prod.fst).Nodup →
      ∀ p ∈ pairs, valsSettled (hValues (pairs.foldl mergeStep acc) p.1) p.2 := by
  intro pairs
  induction pairs with
  | nil => intro acc _ _ p hp; exact absurd hp (List.not_mem_nil p)
  | cons q rest ih =>
    intro acc hgood hnodup p hp
    rw [List.map_cons] at hnodup
    obtain ⟨hqm, hrestnd⟩ := List.nodup_cons.mp hnodup
    rw [List.foldl_cons]
    rcases List.mem_cons.mp hp with rfl | hm
    · have hq := hgood p (List.mem_cons_self p rest)
      have hest := mergeStep_establishes acc p hq.2.1 hq.2.2
      have hother : ∀ r ∈ rest, jsToLower r.1 ≠ jsToLower p.1 := by
        intro r hr
        have hrq : r.1 ≠ p.1 := by
          intro he
          exact hqm (he ▸ List.mem_map_of_mem Prod.fst hr)
        rw [(hgood r (List.mem_cons_of_mem p hr)).1, hq.1]
        exact hrq
      rw [foldl_mergeStep_values_other p.1 rest (mergeStep acc p) hother]
      exact hest
    · exact ih (mergeStep acc q) (fun r hr => hgood r (List.mem_cons_of_mem q hr))
        hrestnd p hm

/-- Pass 2: folding pairs whose invariants already hold changes nothing. -/
theorem foldl_mergeStep_id :
    ∀ (pairs : List (JStr × JStr)) (acc : HeadersM),
      (∀ p ∈ pairs, valsSettled (hValues acc p.1) p.2) →
      pairs.foldl mergeStep acc = acc := by
  intro pairs
  induction pairs with
  | nil => intro acc _; rfl
  | cons q rest ih =>
    intro acc hs
    rw [List.foldl_cons, mergeStep_settled acc q (hs q (List.mem_cons_self q rest))]
    exact ih acc (fun p hp => hs p (List.mem_cons_of_mem q hp))

/-- C8 counterexample: merging the update `{x: "a, b"}` twice is not
idempotent — the comma-containing value is appended again on the second
merge because the duplicate check compares it against the
comma-separated entries of the existing value. -/
theorem mergeHeaders_comma_not_idempotent :
    hGetO (mergeHeadersM (mergeHeadersM (some (hFromList []))
              [hFromList [(js "x", js "a, b")]])
            [hFromList [(js "x", js "a, b")]]) (js "x")
      = some (js "a, b, a, b")
    ∧ hGetO (mergeHeadersM (some (hFromList [])) [hFromList [(js "x", js "a, b")]])
        (js "x") = some (js "a, b") := by
  exact ⟨by decide, by decide⟩

/-- C8 amended: the default-header merge is idempotent for every source
headers map and every update map none of whose iterated (per-name
combined) values contains a comma: merging the update into the result of
merging it once yields a headers map with the same `get` observations
for every name.  (Values with a comma refute the unrestricted claim, see
the counterexample.)  Deletion values (empty or `"undefined"`) are
deleted in both passes; other values are detected as duplicates in the
second pass. -/
theorem mergeHeaders_idempotent_of_commaFree (hl ul : List (JStr × JStr))
    (hnc : ∀ p ∈ hPairs (hFromList ul), (',' : Char) ∉ p.2) :
    ∀ k, hGetO (mergeHeadersM (mergeHeadersM (some (hFromList hl)) [hFromList ul])
                  [hFromList ul]) k
      = hGetO (mergeHeadersM (some (hFromList hl)) [hFromList ul]) k := by
  intro k
  have hulow : Lowered (hFromList ul) := Lowered_hFromList ul
  have hutrm : Trimmed (hFromList ul) := Trimmed_hFromList ul
  have hgood : ∀ p ∈ hPairs (hFromList ul),
      jsToLower p.1 = p.1 ∧ jsTrim p.2 = p.2 ∧ (',' : Char) ∉ p.2 := by
    intro p hp
    exact ⟨Lowered_hCopy _ hulow p hp,
      hPairs_value_trim _ hutrm hulow p hp (hnc p hp), hnc p hp⟩
  have hm1 : mergeHeadersM (some (hFromList hl)) [hFromList ul]
      = some ((hPairs (hFromList ul)).foldl mergeStep (hCopy (hFromList hl))) := rfl
  set r1 := (hPairs (hFromList ul)).foldl mergeStep (hCopy (hFromList hl)) with hr1
  have hset : ∀ p ∈ hPairs (hFromList ul), valsSettled (hValues r1 p.1) p.2 :=
    foldl_mergeStep_settles _ _ hgood (hPairs_keys_nodup _)
  have hset2 : ∀ p ∈ hPairs (hFromList ul), valsSettled (hValues (hCopy r1) p.1) p.2 := by
    intro p hp
    have hκ : jsToLower p.1 = p.1 := (hgood p hp).1
    rw [hValues_hCopy_char r1 p.1 hκ]
    have hs := hset p hp
    unfold valsSettled at hs ⊢
    by_cases hdel : p.2 = [] ∨ p.2 = js "undefined"
    · rw [if_pos hdel] at hs ⊢
      rw [if_pos hs]
    · rw [if_neg hdel] at hs ⊢
      obtain ⟨h1, h2, h3⟩ := hs
      rw [if_neg h2]
      have hj : joinVals [joinVals (hValues r1 p.1)] = joinVals (hValues r1 p.1) := rfl
      refine ⟨?_, by simp, ?_⟩
      · rw [hj]
        exact h1
      · rw [hj]
        exact h3
  have hid : (hPairs (hFromList ul)).foldl mergeStep (hCopy r1) = hCopy r1 :=
    foldl_mergeStep_id _ _ hset2
  have hm2 : mergeHeadersM (some r1) [hFromList ul]
      = some ((hPairs (hFromList ul)).foldl mergeStep (hCopy r1)) := rfl
  rw [hm1, hm2, hid]
  show hGet (hCopy r1) k = hGet r1 k
  exact hGet_hCopy r1 k

/-- Witness for C8 (amended): a one-entry comma-free update applied
twice observes the same value. -/
theorem mergeHeaders_idempotent_witness :
    hGetO (mergeHeadersM (mergeHeadersM (some (hFromList [(js "X", js "a")]))
              [hFromList [(js "X", js "b")]])
            [hFromList [(js "X", js "b")]]) (js "x")
      = hGetO (mergeHeadersM (some (hFromList [(js "X", js "a")]))
          [hFromList [(js "X", js "b")]]) (js "x") :=
  mergeHeaders_idempotent_of_commaFree [(js "X", js "a")] [(js "X", js "b")]
    (by decide) (js "x")
